import Mathlib

set_option maxRecDepth 8000

/-!
Shallow embedding of `src/quiz.py`, an interactive command-line multiple
choice quiz runner.  Pure data and control flow are translated directly.
Effects are made explicit:

* the file system is a map from paths to `FileResult` (missing, unparsable,
  or a parsed JSON document), and the question loader used by the catalog
  and session builders is a function `String → List Question`;
* console input is a list of `InputEvent`s;
* Python exceptions escaping a function are an `Except PyErr` layer;
* the draws of the `random` module are passed in explicitly: a shuffled
  indexed list for `random.shuffle`, a sampling function for `random.sample`.
-/

/-- A question record as loaded from JSON: the `question`, `options` and
`correct_answer` keys of each element of the `questions` array. -/
structure Question where
  question : String
  options : List String
  correct_answer : Nat
deriving DecidableEq

/-- A parsed JSON value, as returned by `json.load`. -/
inductive JValue where
  | null
  | bool (b : Bool)
  | num (n : Int)
  | str (s : String)
  | arr (items : List JValue)
  | obj (fields : List (String × JValue))

/-- What the operating system and the JSON parser yield for a path: the file
may be absent (`FileNotFoundError`), unparsable (`json.JSONDecodeError`), or
a parsed JSON document. -/
inductive FileResult where
  | missing
  | malformed
  | content (v : JValue)

/-- Python exceptions that can escape the modelled functions. -/
inductive PyErr where
  | attributeError
  | stopIteration
  | eofError
  | indexError
deriving DecidableEq

/-- `dict.get key default` on a parsed JSON object (keys are unique after
`json.load`). -/
def dictGet (fields : List (String × JValue)) (key : String) (dflt : JValue) : JValue :=
  match fields.find? (fun kv => kv.1 == key) with
  | some kv => kv.2
  | none => dflt

/-- `load_questions` (src/quiz.py lines 26-36).  On success it returns the
`questions` entry of the parsed document (default `[]`) and no diagnostics;
for a missing or unparsable file it returns an empty array plus the printed
diagnostic line.  When the parsed top-level value is not an object, the
attribute lookup `data.get` raises `AttributeError`, which the function's
`except` clauses (`FileNotFoundError`, `json.JSONDecodeError`) do not catch. -/
def load_questions (file : FileResult) : Except PyErr (JValue × List String) :=
  match file with
  | .missing => .ok (.arr [], ["Error: File not found!"])
  | .malformed => .ok (.arr [], ["Error: Invalid JSON!"])
  | .content (.obj fields) => .ok (dictGet fields "questions" (.arr []), [])
  | .content _ => .error .attributeError

/-- `shuffle_question_options` (src/quiz.py lines 64-73).  `random.shuffle`
applied to `list(enumerate(question_data['options']))` is modelled by passing
the shuffled indexed list `shuf` explicitly; theorems hypothesise that it is
a permutation of `options.enum`.  The `next(...)` over the generator raises
`StopIteration` (modelled as `none`) when the original correct index occurs
nowhere. -/
def shuffle_question_options (q : Question) (shuf : List (Nat × String)) :
    Option (List String × Nat) :=
  match shuf.findIdx? (fun p => p.1 == q.correct_answer) with
  | some i => some (shuf.map Prod.snd, i)
  | none => none

/-- State-passing rendering of `shuffle_question_options`: the question
record is threaded through the call and handed back as it stands after the
body ran.  The source body reads `question_data['options']` and
`question_data['correct_answer']` and assigns to neither, so the record
passes through unchanged and the returned option list is a freshly built
one. -/
def shuffle_question_options_frame (q : Question) (shuf : List (Nat × String)) :
    Option (List String × Nat) × Question :=
  (shuffle_question_options q shuf, q)

/-- One console interaction inside `get_user_answer`: a typed line (carrying
the result of Python `int(...)` on its stripped text, `none` for a
`ValueError`), or a `KeyboardInterrupt` raised at the prompt. -/
inductive InputEvent where
  | line (parsed : Option Int)
  | interrupt
deriving DecidableEq

/-- `get_user_answer` (src/quiz.py lines 49-62): re-prompts on non-numeric or
out-of-range input, returns the 0-based answer index on valid input, and
returns `None` on `KeyboardInterrupt`.  Exhausting the event list models
`input()` raising `EOFError`, which the function does not catch. -/
def get_user_answer (num_options : Nat) : List InputEvent → Except PyErr (Option Nat)
  | [] => .error .eofError
  | .interrupt :: _ => .ok none
  | .line none :: rest => get_user_answer num_options rest
  | .line (some k) :: rest =>
      if 1 ≤ k ∧ k ≤ (num_options : Int) then .ok (some (k - 1).toNat)
      else get_user_answer num_options rest

/-- One element of the `incorrect_answers` list of `run_quiz`
(src/quiz.py lines 105-110). -/
structure Mistake where
  question_num : Nat
  question : String
  your_answer : String
  correct_answer : String
deriving DecidableEq

/-- The observable outcome of a `run_quiz` call that did not raise: the
returned `(correct_answers, total_questions)` pair (`none` when the function
returns `None`), the percentage printed by the results block (`none` when
that block is never reached), and the `incorrect_answers` list as it stands
when the function returns. -/
structure RunOutcome where
  score : Option (Nat × Nat)
  printedPct : Option ℚ
  mistakes : List Mistake
deriving DecidableEq

/-- The per-question loop of `run_quiz` (src/quiz.py lines 90-129).  Each
question is paired with the shuffled indexed option list `random.shuffle`
produced for it and with the console events consumed by its
`get_user_answer` call.  Reaching the end of the list is the results block:
it computes the percentage `correct/total*100` and returns the score. -/
def runLoop (total : Nat) :
    List (Question × List (Nat × String) × List InputEvent) →
    Nat → Nat → List Mistake → Except PyErr RunOutcome
  | [], _, correct, mistakes =>
      .ok ⟨some (correct, total), some ((correct : ℚ) * 100 / (total : ℚ)), mistakes⟩
  | (q, shuf, events) :: rest, i, correct, mistakes =>
      match shuffle_question_options q shuf with
      | none => .error .stopIteration
      | some (opts, cidx) =>
          match get_user_answer opts.length events with
          | .error e => .error e
          | .ok none => .ok ⟨none, none, mistakes⟩
          | .ok (some ua) =>
              if ua = cidx then runLoop total rest (i + 1) (correct + 1) mistakes
              else
                match opts.get? cidx with
                | none => .error .indexError
                | some copt =>
                    match opts.get? ua with
                    | none => .error .indexError
                    | some yopt =>
                        runLoop total rest (i + 1) correct
                          (mistakes ++ [⟨i, q.question, yopt, copt⟩])

/-- `run_quiz` (src/quiz.py lines 75-129): an empty question list prints
"No questions available!" and returns `None`; otherwise the per-question
loop runs with counters starting at `1` and `0` and an empty mistake list. -/
def run_quiz (questions : List Question)
    (shuffles : List (List (Nat × String))) (inputs : List (List InputEvent)) :
    Except PyErr RunOutcome :=
  if questions.isEmpty then .ok ⟨none, none, []⟩
  else runLoop questions.length (questions.zip (shuffles.zip inputs)) 1 0 []

/-- An item of the per-question loop (question, shuffle draw, console
events) whose `get_user_answer` call returns a valid answer after its
shuffle succeeded. -/
def yieldsAnswer (it : Question × List (Nat × String) × List InputEvent) : Bool :=
  (shuffle_question_options it.1 it.2.1).isSome &&
    match get_user_answer it.2.1.length it.2.2 with
    | .ok (some _) => true
    | _ => false

/-- An item of the per-question loop whose `get_user_answer` call reports a
`KeyboardInterrupt` (returns `None`) after its shuffle succeeded. -/
def yieldsCancel (it : Question × List (Nat × String) × List InputEvent) : Bool :=
  (shuffle_question_options it.1 it.2.1).isSome &&
    match get_user_answer it.2.1.length it.2.2 with
    | .ok none => true
    | _ => false

/-- Characters of a Python string after `str.lower` (ASCII data), kept as a
character list: Python compares strings by code points, which is exactly the
lexicographic order on the character lists. -/
def lowerChars (s : String) : List Char :=
  s.toList.map Char.toLower

/-- `s.startswith(pre)`, computed on the character lists. -/
def strStartsWith (s pre : String) : Bool :=
  decide (s.toList.take pre.toList.length = pre.toList)

/-- `s.endswith(suffix)`, computed on the character lists. -/
def strEndsWith (s suffix : String) : Bool :=
  decide (s.toList.drop (s.toList.length - suffix.toList.length) = suffix.toList)

/-- `os.path.basename`: the final path component. -/
def pyBasename (path : String) : String :=
  String.mk ((path.toList.reverse.takeWhile (fun c => c != '/')).reverse)

/-- `os.path.splitext(...)[0]` on a basename: drop the suffix starting at the
last dot, unless every character before that dot is itself a dot. -/
def splitextStem (base : String) : String :=
  match base.toList.reverse.span (fun c => c != '.') with
  | (_, []) => base
  | (_, _ :: preRev) =>
      if preRev.all (fun c => c == '.') then base else String.mk preRev.reverse

/-- Numeric value of a digit run, as Python `int` on the captured group. -/
def digitsVal (ds : List Char) : Nat :=
  ds.foldl (fun a c => a * 10 + (c.toNat - 48)) 0

/-- Match of `LECTURE_FILENAME_RE`, the pattern
`lecture(\d+)(?:_(\d+))?` anchored at both ends, case-insensitively, against
a stem; yields the two captured numbers, `0` for an absent second group
(src/quiz.py lines 131, 136-138). -/
def parseLectureStem (stem : String) : Option (Nat × Nat) :=
  let low := stem.toList.map Char.toLower
  if low.take 7 = "lecture".toList then
    match (low.drop 7).span Char.isDigit with
    | ([], _) => none
    | (ds, []) => some (digitsVal ds, 0)
    | (ds, c :: rest2) =>
        if c = '_' ∧ rest2 ≠ [] ∧ rest2.all Char.isDigit then
          some (digitsVal ds, digitsVal rest2)
        else none
  else none

/-- The codomain of `lecture_sort_key`: Python tuples
`(int, int, str)` / `(inf, inf, str)` under lexicographic comparison, with
`⊤` playing `float('inf')`. -/
abbrev LectureKey := Lex (WithTop ℕ × Lex (WithTop ℕ × List Char))

/-- Build one key tuple. -/
def mkKey (a b : WithTop ℕ) (s : List Char) : LectureKey :=
  toLex (a, toLex (b, s))

/-- `lecture_sort_key` (src/quiz.py lines 133-140). -/
def lecture_sort_key (filepath : String) : LectureKey :=
  let base := splitextStem (pyBasename filepath)
  match parseLectureStem base with
  | some nm => mkKey (nm.1 : ℕ) (nm.2 : ℕ) (lowerChars base)
  | none => mkKey ⊤ ⊤ (lowerChars base)

/-- The ordering `sorted(files, key=lecture_sort_key)` sorts by. -/
def keyRel (a b : String) : Prop :=
  lecture_sort_key a ≤ lecture_sort_key b

instance : DecidableRel keyRel := fun a b =>
  inferInstanceAs (Decidable (lecture_sort_key a ≤ lecture_sort_key b))

instance : IsTotal String keyRel :=
  ⟨fun a b => le_total (lecture_sort_key a) (lecture_sort_key b)⟩

instance : IsTrans String keyRel :=
  ⟨fun _ _ _ h1 h2 => le_trans h1 h2⟩

/-- A directory entry matched by the glob pattern `lecture*.json`: the name
is `"lecture"`, then anything, then `".json"`. -/
def matchesLectureGlob (name : String) : Bool :=
  strStartsWith name "lecture" && strEndsWith name ".json" &&
    decide (12 ≤ name.toList.length)

/-- `os.path.join` for a directory and a relative name. -/
def pjoin (directory name : String) : String :=
  if strEndsWith directory "/" then directory ++ name else directory ++ "/" ++ name

/-- `find_lecture_files` (src/quiz.py lines 142-145): the directory entries
matching `lecture*.json`, as full paths, sorted by `lecture_sort_key`.
Python's `sorted` is a stable sort, and a stable sort for a total preorder
has a unique result, so `List.insertionSort` computes it. -/
def find_lecture_files (directory : String) (listing : List String) : List String :=
  List.insertionSort keyRel ((listing.filter matchesLectureGlob).map (pjoin directory))

/-- `os.path.isabs`. -/
def isAbs (path : String) : Bool :=
  strStartsWith path "/"

/-- The `extra_files` merge loop of `get_lecture_info` (src/quiz.py lines
149-153): each extra path is resolved against the directory, and appended to
the running file list when it exists and is not already present. -/
def addExtras (fileExists : String → Bool) (directory : String) :
    List String → List String → List String
  | acc, [] => acc
  | acc, e :: rest =>
      let full := if isAbs e then e else pjoin directory e
      addExtras fileExists directory
        (if fileExists full && !(acc.contains full) then acc ++ [full] else acc) rest

/-- The full file list `get_lecture_info` iterates over: the sorted glob
results with the existing extra files appended. -/
def discovered_files (fileExists : String → Bool) (directory : String)
    (listing : List String) (extra_files : List String) : List String :=
  addExtras fileExists directory (find_lecture_files directory listing) extra_files

/-- Python `str.title`: upper-case every cased character that follows a
non-cased one, lower-case the other cased characters. -/
def pyTitleGo : Bool → List Char → List Char
  | _, [] => []
  | prevAlpha, c :: rest =>
      (if c.isAlpha then (if prevAlpha then c.toLower else c.toUpper) else c)
        :: pyTitleGo c.isAlpha rest

/-- The display name of a lecture file (src/quiz.py line 161): the stem of
the basename with underscores turned into spaces, title-cased. -/
def displayName (filename : String) : String :=
  String.mk (pyTitleGo false ((splitextStem (pyBasename filename)).toList.map
    (fun c => if c = '_' then ' ' else c)))

/-- One catalog entry built by `get_lecture_info` (src/quiz.py lines
159-163). -/
structure LectureEntry where
  filename : String
  name : String
  count : Nat
deriving DecidableEq

/-- The catalog-building loop of `get_lecture_info` (src/quiz.py lines
154-165): a file contributes an entry exactly when its load is non-empty,
with `count` the number of loaded questions. -/
def build_lecture_info (load : String → List Question) :
    List String → List LectureEntry
  | [] => []
  | f :: rest =>
      let questions := load f
      if questions.isEmpty then build_lecture_info load rest
      else ⟨f, displayName f, questions.length⟩ :: build_lecture_info load rest

/-- `get_lecture_info` (src/quiz.py lines 147-165), with the file system
passed explicitly: `fileExists` for `os.path.exists`, `listing` for the
directory contents `glob` scans, and `load` for `load_questions` restricted
to well-formed question files. -/
def get_lecture_info (fileExists : String → Bool) (load : String → List Question)
    (directory : String) (listing : List String) (extra_files : List String) :
    List LectureEntry :=
  build_lecture_info load (discovered_files fileExists directory listing extra_files)

/-- A question tagged with its transient `source_lecture` name. -/
abbrev TaggedQ := Question × String

/-- The `all_questions` list of `select_questions_evenly` (src/quiz.py lines
168-175): every entry's questions, copied and tagged with the entry's
display name. -/
def allTagged (load : String → List Question) (lecture_info : List LectureEntry) :
    List TaggedQ :=
  lecture_info.flatMap (fun info => (load info.filename).map (fun q => (q, info.name)))

/-- The per-entry selection loop of `select_questions_evenly` (src/quiz.py
lines 186-200): filter the tagged pool by the entry's name, hand one
remainder unit to each entry with a non-empty group while any is left, clamp
to the group size, and draw a sample of that size. -/
def selectLoop (sample : List TaggedQ → Nat → List TaggedQ)
    (all_questions : List TaggedQ) (base_per_lecture : Nat) :
    List LectureEntry → Nat → List TaggedQ
  | [], _ => []
  | info :: rest, remainder =>
      let questions := all_questions.filter (fun tq => tq.2 == info.name)
      if questions.isEmpty then
        selectLoop sample all_questions base_per_lecture rest remainder
      else
        let count0 := if 0 < remainder then base_per_lecture + 1 else base_per_lecture
        let rem' := if 0 < remainder then remainder - 1 else remainder
        let count := min count0 questions.length
        (if 0 < count then sample questions count else []) ++
          selectLoop sample all_questions base_per_lecture rest rem'

/-- `select_questions_evenly` (src/quiz.py lines 167-207), with the `random`
draws passed explicitly: `sample` stands for `random.sample` (theorems
hypothesise only its contract, that it returns as many elements as asked
from a sufficiently large pool) and `shuffle` for the final
`random.shuffle` (hypothesised to preserve length).  The trailing `pop` of
the tag is the projection to the first component. -/
def select_questions_evenly (load : String → List Question)
    (sample : List TaggedQ → Nat → List TaggedQ)
    (shuffle : List TaggedQ → List TaggedQ)
    (lecture_info : List LectureEntry) (total_questions : Nat) : List Question :=
  let all_questions := allTagged load lecture_info
  if all_questions.isEmpty then []
  else
    let num_lectures := lecture_info.length
    let base_per_lecture := total_questions / num_lectures
    let remainder := total_questions % num_lectures
    (shuffle (selectLoop sample all_questions base_per_lecture lecture_info remainder)).map
      Prod.fst

/-- Modelled from the spec (section 4.3, step 2): the requested allocation
list, `base+1` for the first `r` entries and `base` for the rest. -/
def specAllocs (base r n : Nat) : List Nat :=
  List.replicate r (base + 1) ++ List.replicate (n - r) base

/-- Modelled from the spec (section 4.3, steps 2-3): each entry's requested
allocation clamped to its available question count. -/
def clampedAllocs (t : Nat) (counts : List Nat) : List Nat :=
  List.zipWith min (specAllocs (t / counts.length) (t % counts.length) counts.length) counts

/-! Concrete data used by examples, witnesses and counterexamples. -/

/-- A minimal well-formed question. -/
def q0 : Question := ⟨"q", ["a", "b"], 0⟩

/-- One admissible realisation of `random.sample`: the first `n` elements of
the pool. -/
def takeSample : List TaggedQ → Nat → List TaggedQ := fun l n => l.take n

/-- The spec's scenario catalog: three lectures holding 5, 3 and 10
questions. -/
def demoCatalog : List LectureEntry :=
  [⟨"lec1.json", "L1", 5⟩, ⟨"lec2.json", "L2", 3⟩, ⟨"lec3.json", "L3", 10⟩]

/-- The loader behind `demoCatalog`. -/
def demoLoad : String → List Question := fun f =>
  if f = "lec1.json" then List.replicate 5 q0
  else if f = "lec2.json" then List.replicate 3 q0
  else if f = "lec3.json" then List.replicate 10 q0
  else []

/-- A catalog whose two entries carry the same display name (two files with
the same basename reachable through `extra_files`). -/
def dupCatalog : List LectureEntry :=
  [⟨"a.json", "L", 1⟩, ⟨"b.json", "L", 1⟩]

/-- The loader behind `dupCatalog`: one question in each file. -/
def dupLoad : String → List Question := fun f =>
  if f = "a.json" then [q0] else if f = "b.json" then [q0] else []

/-- A catalog with one short entry (1 question) and one long one (4). -/
def c2Catalog : List LectureEntry :=
  [⟨"a.json", "A", 1⟩, ⟨"b.json", "B", 4⟩]

/-- The loader behind `c2Catalog`. -/
def c2Load : String → List Question := fun f =>
  if f = "a.json" then [q0] else if f = "b.json" then List.replicate 4 q0 else []

/-- A file-existence oracle under which every path exists. -/
def allExist : String → Bool := fun _ => true

/-- A loader yielding one question for every path. -/
def oneQLoad : String → List Question := fun _ => [q0]

/-- A three-option question for the shuffling and quiz-run witnesses. -/
def q3 : Question := ⟨"pick", ["x", "y", "z"], 1⟩

/-- One admissible `random.shuffle` outcome on `q3.options.enum`. -/
def shuf3 : List (Nat × String) := [(2, "z"), (0, "x"), (1, "y")]

/-! Helper lemmas. -/

/-- A successful shuffle returns the second components of the shuffled
indexed list, and a new correct index within bounds. -/
theorem shuffle_question_options_some {q : Question} {shuf : List (Nat × String)}
    {opts : List String} {j : Nat}
    (h : shuffle_question_options q shuf = some (opts, j)) :
    opts = shuf.map Prod.snd ∧ j < shuf.length := by
  unfold shuffle_question_options at h
  rcases hf : shuf.findIdx? (fun p => p.1 == q.correct_answer) with _ | i <;> rw [hf] at h
  · simp at h
  · simp only [Option.some.injEq, Prod.mk.injEq] at h
    obtain ⟨h1, h2⟩ := h
    subst h1; subst h2
    exact ⟨rfl, (List.findIdx?_eq_some_iff_findIdx_eq.mp hf).1⟩

/-- A valid answer returned by `get_user_answer` is a 0-based index strictly
below the option count. -/
theorem get_user_answer_lt {num_options : Nat} {a : Nat} :
    ∀ (events : List InputEvent),
      get_user_answer num_options events = Except.ok (some a) → a < num_options
  | [], h => by simp [get_user_answer] at h
  | .interrupt :: _, h => by simp [get_user_answer] at h
  | .line none :: rest, h => get_user_answer_lt rest h
  | .line (some k) :: rest, h => by
      rw [get_user_answer] at h
      split at h
      · rename_i hk
        simp only [Except.ok.injEq, Option.some.injEq] at h
        omega
      · exact get_user_answer_lt rest h

/-- Claim C3: for every question whose `correct_answer` is a valid index and
every permutation the shuffle produces, `shuffle_question_options` returns a
permutation of the original options in which the element that originated at
the original correct index sits at the returned new correct index. -/
theorem C3_shuffle_perm_and_correct (q : Question) (shuf : List (Nat × String))
    (hc : q.correct_answer < q.options.length)
    (hperm : shuf.Perm q.options.enum) :
    ∃ opts j, shuffle_question_options q shuf = some (opts, j) ∧
      opts.Perm q.options ∧ opts.get? j = q.options.get? q.correct_answer := by
  have hx : q.options.get? q.correct_answer = some (q.options.get ⟨q.correct_answer, hc⟩) :=
    List.get?_eq_get hc
  set x := q.options.get ⟨q.correct_answer, hc⟩ with hxdef
  have hmem : (q.correct_answer, x) ∈ q.options.enum := by
    rw [List.mem_enum_iff_getElem?]
    simpa [← List.get?_eq_getElem?] using hx
  have hmem2 : (q.correct_answer, x) ∈ shuf := hperm.mem_iff.mpr hmem
  have hex : ∃ p, p ∈ shuf ∧ (p.1 == q.correct_answer) = true := ⟨(q.correct_answer, x), hmem2, by simp⟩
  have hsome := List.findIdx?_eq_some_of_exists hex
  set j := shuf.findIdx (fun p => p.1 == q.correct_answer) with hjdef
  have hjlt : j < shuf.length := List.findIdx_lt_length_of_exists hex
  have hpj : ((shuf.get ⟨j, hjlt⟩).1 == q.correct_answer) = true := by
    have := @List.findIdx_getElem _ (fun p => p.1 == q.correct_answer) shuf hjlt
    simpa [← List.get_eq_getElem] using this
  have hjmem : shuf.get ⟨j, hjlt⟩ ∈ shuf := List.get_mem shuf _ hjlt
  have hjenum : shuf.get ⟨j, hjlt⟩ ∈ q.options.enum := hperm.mem_iff.mp hjmem
  have hfst : (shuf.get ⟨j, hjlt⟩).1 = q.correct_answer := by
    simpa using hpj
  have hsnd : (shuf.get ⟨j, hjlt⟩).2 = x := by
    have h1 := List.mem_enum_iff_getElem?.mp hjenum
    rw [hfst] at h1
    have h2 : q.options.get? q.correct_answer = some (shuf.get ⟨j, hjlt⟩).2 := by
      simpa [← List.get?_eq_getElem?] using h1
    rw [hx] at h2
    exact (Option.some.injEq _ _ ▸ h2).symm
  refine ⟨shuf.map Prod.snd, j, ?_, ?_, ?_⟩
  · unfold shuffle_question_options
    rw [hsome]
  · have := hperm.map Prod.snd
    rwa [List.enum_map_snd] at this
  · rw [List.get?_map, List.get?_eq_get hjlt, hx]
    simpa [List.get_eq_getElem] using hsnd

/-- Witness for C3 at a concrete three-option question and shuffle. -/
theorem C3_shuffle_perm_and_correct_witness :
    q3.correct_answer < q3.options.length ∧ shuf3.Perm q3.options.enum ∧
      ∃ opts j, shuffle_question_options q3 shuf3 = some (opts, j) ∧
        opts.Perm q3.options ∧ opts.get? j = q3.options.get? q3.correct_answer :=
  ⟨by decide, by decide, C3_shuffle_perm_and_correct q3 shuf3 (by decide) (by decide)⟩

/-- Claim C9: `shuffle_question_options` leaves the question record
unchanged.  In the state-passing rendering the record handed back after the
body (which reads `options` and `correct_answer` and writes neither) still
has the original option sequence and correct index, and the returned value
is that of the pure function. -/
theorem C9_shuffle_no_mutation (q : Question) (shuf : List (Nat × String)) :
    ((shuffle_question_options_frame q shuf).2.options = q.options ∧
      (shuffle_question_options_frame q shuf).2.correct_answer = q.correct_answer) ∧
      (shuffle_question_options_frame q shuf).1 = shuffle_question_options q shuf :=
  ⟨⟨rfl, rfl⟩, rfl⟩

/-- Counterexample to C4 as stated: the parseable document `[]` (a JSON
array at top level) makes `load_questions` raise `AttributeError` — `.get`
is looked up on a list — which no `except` clause catches. -/
theorem C4_counterexample_nonobject_raises :
    load_questions (.content (.arr [])) = .error .attributeError := rfl

/-- Claim C4 (amended): for a missing file, an unparsable file, or any
parseable document whose top-level value is an object, `load_questions`
never raises: it returns the `questions` entry on success and an empty
array plus a diagnostic line otherwise. -/
theorem C4_load_questions_total (file : FileResult)
    (h : file = .missing ∨ file = .malformed ∨ ∃ fields, file = .content (.obj fields)) :
    ∃ v msgs, load_questions file = .ok (v, msgs) ∧
      ((file = .missing ∨ file = .malformed) → v = .arr [] ∧ msgs ≠ []) ∧
      (∀ fields, file = .content (.obj fields) →
        v = dictGet fields "questions" (.arr []) ∧ msgs = []) := by
  rcases h with h | h | ⟨fields, h⟩ <;> subst h
  · exact ⟨.arr [], _, rfl, fun _ => ⟨rfl, by simp⟩, fun _ h => by simp at h⟩
  · exact ⟨.arr [], _, rfl, fun _ => ⟨rfl, by simp⟩, fun _ h => by simp at h⟩
  · refine ⟨dictGet fields "questions" (.arr []), [], rfl, fun hcon => ?_, ?_⟩
    · rcases hcon with h | h <;> simp at h
    · intro fields2 heq
      have : fields2 = fields := by
        injection heq with h1
        injection h1 with h2
        exact h2.symm
      subst this
      exact ⟨rfl, rfl⟩

/-- Unpacking of `yieldsAnswer`. -/
theorem yieldsAnswer_elim {it : Question × List (Nat × String) × List InputEvent}
    (h : yieldsAnswer it = true) :
    ∃ opts cidx a, shuffle_question_options it.1 it.2.1 = some (opts, cidx) ∧
      get_user_answer it.2.1.length it.2.2 = Except.ok (some a) := by
  unfold yieldsAnswer at h
  rw [Bool.and_eq_true] at h
  obtain ⟨h1, h2⟩ := h
  obtain ⟨⟨opts, cidx⟩, hr⟩ := Option.isSome_iff_exists.mp h1
  rcases hg : get_user_answer it.2.1.length it.2.2 with e | v
  · rw [hg] at h2; simp at h2
  · rcases v with _ | a
    · rw [hg] at h2; simp at h2
    · exact ⟨opts, cidx, a, hr, rfl⟩

/-- Unpacking of `yieldsCancel`. -/
theorem yieldsCancel_elim {it : Question × List (Nat × String) × List InputEvent}
    (h : yieldsCancel it = true) :
    ∃ opts cidx, shuffle_question_options it.1 it.2.1 = some (opts, cidx) ∧
      get_user_answer it.2.1.length it.2.2 = Except.ok none := by
  unfold yieldsCancel at h
  rw [Bool.and_eq_true] at h
  obtain ⟨h1, h2⟩ := h
  obtain ⟨⟨opts, cidx⟩, hr⟩ := Option.isSome_iff_exists.mp h1
  rcases hg : get_user_answer it.2.1.length it.2.2 with e | v
  · rw [hg] at h2; simp at h2
  · rcases v with _ | a
    · exact ⟨opts, cidx, hr, rfl⟩
    · rw [hg] at h2; simp at h2

/-- Cancellation inside the loop: after a prefix of answered questions, an
interrupt makes the loop return `None` at once, with only the mistakes of
already-answered questions recorded. -/
theorem runLoop_cancel {total : Nat} :
    ∀ (pre : List (Question × List (Nat × String) × List InputEvent)) (qit) (post)
      (i c : Nat) (m : List Mistake),
      (∀ it ∈ pre, yieldsAnswer it = true) → yieldsCancel qit = true →
      (∀ mk ∈ m, mk.question_num < i) →
      ∃ M, runLoop total (pre ++ qit :: post) i c m = .ok ⟨none, none, M⟩ ∧
        ∀ mk ∈ M, mk.question_num < i + pre.length := by
  intro pre
  induction pre with
  | nil =>
    intro qit post i c m _ hcan hm
    obtain ⟨q, shuf, events⟩ := qit
    obtain ⟨opts, cidx, hr, hg⟩ := yieldsCancel_elim hcan
    have hlen : opts.length = shuf.length := by
      rw [(shuffle_question_options_some hr).1, List.length_map]
    rw [List.nil_append]
    simp only [runLoop]
    rw [hr]
    simp only
    rw [hlen, hg]
    simp only
    exact ⟨m, rfl, fun mk hmk => by simpa using hm mk hmk⟩
  | cons it pre ih =>
    intro qit post i c m hpre hcan hm
    obtain ⟨q, shuf, events⟩ := it
    obtain ⟨opts, cidx, a, hr, hg⟩ := yieldsAnswer_elim (hpre _ (List.mem_cons_self _ _))
    have hpre' : ∀ x ∈ pre, yieldsAnswer x = true :=
      fun x hx => hpre x (List.mem_cons_of_mem _ hx)
    have hsome := shuffle_question_options_some hr
    have hlen : opts.length = shuf.length := by rw [hsome.1, List.length_map]
    rw [List.cons_append]
    simp only [runLoop]
    rw [hr]
    simp only
    rw [hlen, hg]
    simp only
    by_cases hua : a = cidx
    · rw [if_pos hua]
      obtain ⟨M, hM, hb⟩ := ih qit post (i + 1) (c + 1) m hpre' hcan
        (fun mk hmk => Nat.lt_succ_of_lt (hm mk hmk))
      refine ⟨M, hM, fun mk hmk => ?_⟩
      have := hb mk hmk
      simp only [List.length_cons]
      omega
    · rw [if_neg hua]
      have hcidx : cidx < opts.length := by rw [hlen]; exact hsome.2
      have ha : a < opts.length := by rw [hlen]; exact get_user_answer_lt events hg
      rw [List.get?_eq_get hcidx, List.get?_eq_get ha]
      obtain ⟨M, hM, hb⟩ := ih qit post (i + 1) c
        (m ++ [⟨i, q.question, opts.get ⟨a, ha⟩, opts.get ⟨cidx, hcidx⟩⟩]) hpre' hcan
        (fun mk hmk => by
          rcases List.mem_append.mp hmk with h | h
          · exact Nat.lt_succ_of_lt (hm mk h)
          · rw [List.mem_singleton.mp h]; exact Nat.lt_succ_self i)
      refine ⟨M, hM, fun mk hmk => ?_⟩
      have := hb mk hmk
      simp only [List.length_cons]
      omega

/-- A loop in which every question is answered reaches the results block:
the score pair and percentage are produced, and the mistake list grows by
exactly the number of wrong answers. -/
theorem runLoop_complete {total : Nat} :
    ∀ (items : List (Question × List (Nat × String) × List InputEvent))
      (i c : Nat) (m : List Mistake),
      (∀ it ∈ items, yieldsAnswer it = true) →
      ∃ dc M, runLoop total items i c m =
          .ok ⟨some (c + dc, total), some (((c + dc : Nat) : ℚ) * 100 / (total : ℚ)), M⟩ ∧
        M.length = m.length + (items.length - dc) ∧ dc ≤ items.length := by
  intro items
  induction items with
  | nil =>
    intro i c m _
    exact ⟨0, m, rfl, by simp, Nat.le_refl _⟩
  | cons it rest ih =>
    intro i c m hall
    obtain ⟨q, shuf, events⟩ := it
    obtain ⟨opts, cidx, a, hr, hg⟩ := yieldsAnswer_elim (hall _ (List.mem_cons_self _ _))
    have hall' : ∀ x ∈ rest, yieldsAnswer x = true :=
      fun x hx => hall x (List.mem_cons_of_mem _ hx)
    have hsome := shuffle_question_options_some hr
    have hlen : opts.length = shuf.length := by rw [hsome.1, List.length_map]
    simp only [runLoop]
    rw [hr]
    simp only
    rw [hlen, hg]
    simp only
    by_cases hua : a = cidx
    · rw [if_pos hua]
      obtain ⟨dc, M, hM, hMlen, hdc⟩ := ih (i + 1) (c + 1) m hall'
      refine ⟨dc + 1, M, ?_, ?_, ?_⟩
      · rw [hM]
        have : c + 1 + dc = c + (dc + 1) := by omega
        rw [this]
      · rw [hMlen]; simp only [List.length_cons]; omega
      · simp only [List.length_cons]; omega
    · rw [if_neg hua]
      have hcidx : cidx < opts.length := by rw [hlen]; exact hsome.2
      have ha : a < opts.length := by rw [hlen]; exact get_user_answer_lt events hg
      rw [List.get?_eq_get hcidx, List.get?_eq_get ha]
      obtain ⟨dc, M, hM, hMlen, hdc⟩ := ih (i + 1) c
        (m ++ [⟨i, q.question, opts.get ⟨a, ha⟩, opts.get ⟨cidx, hcidx⟩⟩]) hall'
      refine ⟨dc, M, hM, ?_, ?_⟩
      · rw [hMlen]; simp only [List.length_append, List.length_cons, List.length_nil]; omega
      · simp only [List.length_cons]; omega

/-- Witness for C4 at the missing-file input. -/
theorem C4_load_questions_total_witness :
    ∃ v msgs, load_questions .missing = .ok (v, msgs) ∧
      ((FileResult.missing = .missing ∨ FileResult.missing = .malformed) →
        v = .arr [] ∧ msgs ≠ []) ∧
      (∀ fields, FileResult.missing = .content (.obj fields) →
        v = dictGet fields "questions" (.arr []) ∧ msgs = []) :=
  C4_load_questions_total .missing (Or.inl rfl)


/-- A loop whose result reached the results block (it printed a percentage)
produced a score over the fixed total. -/
theorem runLoop_printedPct {total : Nat} :
    ∀ (items : List (Question × List (Nat × String) × List InputEvent))
      (i c : Nat) (m : List Mistake) (o : RunOutcome),
      runLoop total items i c m = .ok o →
      ∀ p : ℚ, o.printedPct = some p →
        ∃ c2, o.score = some (c2, total) ∧ p = (c2 : ℚ) * 100 / (total : ℚ) := by
  intro items
  induction items with
  | nil =>
    intro i c m o h p hp
    simp only [runLoop, Except.ok.injEq] at h
    subst h
    simp only [Option.some.injEq] at hp
    exact ⟨c, rfl, hp.symm⟩
  | cons it rest ih =>
    intro i c m o h p hp
    obtain ⟨q, shuf, events⟩ := it
    simp only [runLoop] at h
    split at h
    · simp at h
    · split at h
      · simp at h
      · simp only [Except.ok.injEq] at h
        subst h
        simp at hp
      · split at h
        · exact ih _ _ _ _ h p hp
        · split at h
          · simp at h
          · split at h
            · simp at h
            · exact ih _ _ _ _ h p hp

/-- Claim C7: a cancelled answer wait aborts the whole run at once — after a
prefix of answered questions, an interrupt at the next question's input
makes `run_quiz` return with no score, no printed percentage, and mistake
entries only for already-answered questions. -/
theorem C7_cancel_aborts_run (questions : List Question)
    (shuffles : List (List (Nat × String))) (inputs : List (List InputEvent))
    (pre : List (Question × List (Nat × String) × List InputEvent))
    (qit : Question × List (Nat × String) × List InputEvent)
    (post : List (Question × List (Nat × String) × List InputEvent))
    (hzip : questions.zip (shuffles.zip inputs) = pre ++ qit :: post)
    (hpre : ∀ it ∈ pre, yieldsAnswer it = true)
    (hcan : yieldsCancel qit = true) :
    ∃ M, run_quiz questions shuffles inputs = .ok ⟨none, none, M⟩ ∧
      ∀ mk ∈ M, mk.question_num ≤ pre.length := by
  have hne : questions ≠ [] := by
    intro h
    subst h
    simp at hzip
  rw [run_quiz, if_neg (by simp only [List.isEmpty_iff]; exact hne)]
  rw [hzip]
  obtain ⟨M, hM, hb⟩ := runLoop_cancel pre qit post 1 0 [] hpre hcan (by simp)
  exact ⟨M, hM, fun mk hmk => by have := hb mk hmk; omega⟩

/-- Witness for C7: five would be as the spec scenario, two suffice — the
first question is answered, the second interrupted. -/
theorem C7_cancel_aborts_run_witness :
    ∃ M, run_quiz [q3, q3] [shuf3, shuf3] [[.line (some 1)], [.interrupt]] =
        .ok ⟨none, none, M⟩ ∧
      ∀ mk ∈ M, mk.question_num ≤ 1 :=
  C7_cancel_aborts_run [q3, q3] [shuf3, shuf3] [[.line (some 1)], [.interrupt]]
    [(q3, shuf3, [.line (some 1)])] (q3, shuf3, [.interrupt]) [] rfl
    (by decide) (by decide)

/-- Claim C8: an empty question sequence yields the no-questions report and
no score, and the percentage `correct/total*100` is computed only in runs
whose total is at least 1. -/
theorem C8_no_division_on_empty :
    (∀ shuffles inputs, run_quiz [] shuffles inputs = .ok ⟨none, none, []⟩) ∧
    (∀ questions shuffles inputs o,
      run_quiz questions shuffles inputs = .ok o →
      ∀ p : ℚ, o.printedPct = some p →
        ∃ c t, o.score = some (c, t) ∧ 1 ≤ t ∧ t = questions.length ∧
          p = (c : ℚ) * 100 / (t : ℚ)) := by
  constructor
  · intro shuffles inputs
    rfl
  · intro questions shuffles inputs o h p hp
    by_cases hq : questions.isEmpty
    · rw [run_quiz, if_pos hq] at h
      simp only [Except.ok.injEq] at h
      subst h
      simp at hp
    · rw [run_quiz, if_neg hq] at h
      obtain ⟨c2, hs, hpeq⟩ := runLoop_printedPct _ 1 0 [] o h p hp
      refine ⟨c2, questions.length, hs, ?_, rfl, hpeq⟩
      have hne : questions ≠ [] := by simpa [List.isEmpty_iff] using hq
      have := List.length_pos.mpr hne
      omega

/-- Witness for C8: the empty run, and a one-question run that reaches the
results block with total 1. -/
theorem C8_no_division_on_empty_witness :
    run_quiz [] [] [] = .ok ⟨none, none, []⟩ ∧
    ∃ c t, (RunOutcome.mk (some (1, 1)) (some ((1 : ℚ) * 100 / (1 : ℚ))) []).score =
        some (c, t) ∧ 1 ≤ t ∧ t = [q3].length ∧
        (1 : ℚ) * 100 / (1 : ℚ) = (c : ℚ) * 100 / (t : ℚ) :=
  ⟨C8_no_division_on_empty.1 [] [],
    C8_no_division_on_empty.2 [q3] [shuf3] [[.line (some 3)]]
      ⟨some (1, 1), some ((1 : ℚ) * 100 / (1 : ℚ)), []⟩ rfl
      ((1 : ℚ) * 100 / (1 : ℚ)) rfl⟩

/-- Claim C10: a run in which every question is answered returns a score
with `correct + mistakes = total`, so `correct ≤ total` and the reported
incorrect count `total - correct` is the mistake-list length. -/
theorem C10_score_accounting (questions : List Question)
    (shuffles : List (List (Nat × String))) (inputs : List (List InputEvent))
    (hne : questions ≠ [])
    (hs : questions.length ≤ shuffles.length)
    (hi : questions.length ≤ inputs.length)
    (hall : ∀ it ∈ questions.zip (shuffles.zip inputs), yieldsAnswer it = true) :
    ∃ o correct, run_quiz questions shuffles inputs = .ok o ∧
      o.score = some (correct, questions.length) ∧
      correct + o.mistakes.length = questions.length ∧
      correct ≤ questions.length ∧
      o.mistakes.length = questions.length - correct := by
  have hlen : (questions.zip (shuffles.zip inputs)).length = questions.length := by
    simp only [List.length_zip]
    omega
  rw [run_quiz, if_neg (by simp only [List.isEmpty_iff]; exact hne)]
  obtain ⟨dc, M, hM, hMlen, hdc⟩ := runLoop_complete _ 1 0 [] hall
  rw [hlen] at hMlen hdc
  simp only [List.length_nil, Nat.zero_add] at hMlen
  refine ⟨_, 0 + dc, hM, rfl, ?_, ?_, ?_⟩ <;> dsimp only <;> omega

/-- Witness for C10: two questions, one answered right and one wrong. -/
theorem C10_score_accounting_witness :
    ∃ o correct,
      run_quiz [q3, q3] [shuf3, shuf3] [[.line (some 3)], [.line (some 1)]] = .ok o ∧
      o.score = some (correct, 2) ∧
      correct + o.mistakes.length = 2 ∧ correct ≤ 2 ∧
      o.mistakes.length = 2 - correct :=
  C10_score_accounting [q3, q3] [shuf3, shuf3] [[.line (some 3)], [.line (some 1)]]
    (by decide) (by decide) (by decide) (by decide)

/-- Unfolding of the spec allocation list when no remainder is left. -/
theorem specAllocs_zero_succ (b n : Nat) :
    specAllocs b 0 (n + 1) = b :: specAllocs b 0 n := by
  simp [specAllocs, List.replicate_succ]

/-- Unfolding of the spec allocation list while remainder units are left. -/
theorem specAllocs_succ_succ (b r n : Nat) :
    specAllocs b (r + 1) (n + 1) = (b + 1) :: specAllocs b r n := by
  simp [specAllocs, List.replicate_succ, Nat.succ_sub_succ]

/-- Tagged questions of entries none of which carries the name `nm` escape
the name filter entirely. -/
theorem filter_allTagged_of_notmem (load : String → List Question) (nm : String) :
    ∀ (l : List LectureEntry), (∀ i ∈ l, i.name ≠ nm) →
      (allTagged load l).filter (fun tq => tq.2 == nm) = [] := by
  intro l
  induction l with
  | nil => intro _; simp [allTagged]
  | cons i l ih =>
    intro h
    have hi : i.name ≠ nm := h i (List.mem_cons_self _ _)
    have hrest := ih (fun x hx => h x (List.mem_cons_of_mem _ hx))
    simp only [allTagged, List.flatMap_cons, List.filter_append] at hrest ⊢
    rw [List.filter_map]
    have hnil : ((load i.filename).filter
        ((fun tq : TaggedQ => tq.2 == nm) ∘ fun q => (q, i.name))) = [] := by
      apply List.filter_eq_nil_iff.mpr
      intro a _
      simp [Function.comp, hi]
    rw [hnil, hrest]
    simp

/-- With pairwise-distinct display names, the `source_lecture` filter of
`select_questions_evenly` recovers exactly the entry's own tagged load. -/
theorem filter_allTagged (load : String → List Question) :
    ∀ (l : List LectureEntry), (l.map LectureEntry.name).Nodup →
      ∀ info ∈ l, (allTagged load l).filter (fun tq => tq.2 == info.name) =
        (load info.filename).map (fun q => (q, info.name)) := by
  intro l
  induction l with
  | nil =>
    intro _ info hmem
    simp at hmem
  | cons i l ih =>
    intro hnd info hmem
    rw [List.map_cons, List.nodup_cons] at hnd
    obtain ⟨hni, hnd'⟩ := hnd
    simp only [allTagged, List.flatMap_cons, List.filter_append]
    rcases List.mem_cons.mp hmem with rfl | hmem'
    · rw [List.filter_map]
      have h1 : (load info.filename).filter
          ((fun tq : TaggedQ => tq.2 == info.name) ∘ fun q => (q, info.name)) =
          load info.filename := by
        apply List.filter_eq_self.mpr
        intro a _
        simp [Function.comp]
      rw [h1]
      have h2 : ∀ x ∈ l, x.name ≠ info.name := by
        intro x hx heq
        exact hni (heq ▸ List.mem_map_of_mem LectureEntry.name hx)
      have h3 := filter_allTagged_of_notmem load info.name l h2
      simp only [allTagged] at h3
      rw [h3, List.append_nil]
    · have hi : i.name ≠ info.name := by
        intro heq
        exact hni (heq ▸ List.mem_map_of_mem LectureEntry.name hmem')
      rw [List.filter_map]
      have h1 : (load i.filename).filter
          ((fun tq : TaggedQ => tq.2 == info.name) ∘ fun q => (q, i.name)) = [] := by
        apply List.filter_eq_nil_iff.mpr
        intro a _
        simp [Function.comp, hi]
      rw [h1]
      have h4 := ih hnd' info hmem'
      simp only [allTagged] at h4
      simp only [List.map_nil, List.nil_append]
      exact h4

/-- Length of one guarded sample draw. -/
theorem sample_draw_length (sample : List TaggedQ → Nat → List TaggedQ)
    (hsample : ∀ (l : List TaggedQ) (n : Nat), n ≤ l.length → (sample l n).length = n)
    (pool : List TaggedQ) (c : Nat) (hc : c ≤ pool.length) :
    (if 0 < c then sample pool c else []).length = c := by
  by_cases h : 0 < c
  · rw [if_pos h]
    exact hsample pool c hc
  · rw [if_neg h]
    simp only [List.length_nil]
    omega

/-- The selection loop, run over entries whose filter group is exactly their
own non-empty load, returns one clamped allocation's worth of questions per
entry. -/
theorem selectLoop_length (load : String → List Question)
    (sample : List TaggedQ → Nat → List TaggedQ)
    (hsample : ∀ (l : List TaggedQ) (n : Nat), n ≤ l.length → (sample l n).length = n)
    (all : List TaggedQ) (b : Nat) :
    ∀ (l : List LectureEntry) (rem : Nat),
      (∀ info ∈ l, all.filter (fun tq => tq.2 == info.name) =
          (load info.filename).map (fun q => (q, info.name)) ∧ load info.filename ≠ []) →
      (selectLoop sample all b l rem).length =
        (List.zipWith min (specAllocs b rem l.length)
          (l.map (fun i => (load i.filename).length))).sum := by
  intro l
  induction l with
  | nil =>
    intro rem _
    simp [selectLoop]
  | cons info l ih =>
    intro rem h
    obtain ⟨hfilt, hne⟩ := h info (List.mem_cons_self _ _)
    have h' := fun x hx => h x (List.mem_cons_of_mem _ hx)
    simp only [selectLoop]
    rw [hfilt]
    rw [if_neg (by simp [List.isEmpty_iff, List.map_eq_nil_iff]; exact hne)]
    rw [List.length_append]
    rcases rem with _ | r
    · rw [if_neg (Nat.lt_irrefl 0), if_neg (Nat.lt_irrefl 0)]
      rw [sample_draw_length sample hsample _ _ (Nat.min_le_right _ _)]
      rw [ih 0 h']
      rw [List.length_cons, specAllocs_zero_succ, List.map_cons,
        List.zipWith_cons_cons, List.sum_cons, List.length_map]
    · rw [if_pos (Nat.succ_pos r), if_pos (Nat.succ_pos r)]
      rw [sample_draw_length sample hsample _ _ (Nat.min_le_right _ _)]
      simp only [Nat.add_sub_cancel]
      rw [ih r h']
      rw [List.length_cons, specAllocs_succ_succ, List.map_cons,
        List.zipWith_cons_cons, List.sum_cons, List.length_map]

/-- The sum of pointwise minima is at most the left sum. -/
theorem sum_zipWith_min_le_left : ∀ (as bs : List Nat),
    (List.zipWith min as bs).sum ≤ as.sum
  | [], _ => by simp
  | _ :: _, [] => by simp
  | a :: as, b :: bs => by
      simp only [List.zipWith_cons_cons, List.sum_cons]
      exact Nat.add_le_add (Nat.min_le_left a b) (sum_zipWith_min_le_left as bs)

/-- The sum of pointwise minima is at most the right sum. -/
theorem sum_zipWith_min_le_right : ∀ (as bs : List Nat),
    (List.zipWith min as bs).sum ≤ bs.sum
  | [], _ => by simp
  | _ :: _, [] => by simp
  | a :: as, b :: bs => by
      simp only [List.zipWith_cons_cons, List.sum_cons]
      exact Nat.add_le_add (Nat.min_le_right a b) (sum_zipWith_min_le_right as bs)

/-- The requested allocations add up to `n*b + r`. -/
theorem specAllocs_sum (b r n : Nat) (h : r ≤ n) :
    (specAllocs b r n).sum = n * b + r := by
  have h1 : r + (n - r) = n := Nat.add_sub_cancel' h
  calc (specAllocs b r n).sum = r * (b + 1) + (n - r) * b := by
        simp [specAllocs, List.sum_append, List.sum_replicate, smul_eq_mul]
    _ = (r + (n - r)) * b + r := by ring
    _ = n * b + r := by rw [h1]

/-- `select_questions_evenly` under a catalog with pairwise-distinct display
names, all of whose entries load at least one question: the output length is
the sum of the clamped allocations. -/
theorem select_questions_evenly_length (load : String → List Question)
    (sample : List TaggedQ → Nat → List TaggedQ)
    (shuffle : List TaggedQ → List TaggedQ) (lecture_info : List LectureEntry)
    (t : Nat)
    (hsample : ∀ (l : List TaggedQ) (n : Nat), n ≤ l.length → (sample l n).length = n)
    (hshuffle : ∀ l, (shuffle l).length = l.length)
    (hne : lecture_info ≠ [])
    (hnodup : (lecture_info.map LectureEntry.name).Nodup)
    (hload : ∀ info ∈ lecture_info, load info.filename ≠ []) :
    (select_questions_evenly load sample shuffle lecture_info t).length =
      (clampedAllocs t (lecture_info.map (fun i => (load i.filename).length))).sum := by
  have hAllNe : (allTagged load lecture_info).isEmpty ≠ true := by
    rcases lecture_info with _ | ⟨i0, l0⟩
    · exact absurd rfl hne
    · have h0 : load i0.filename ≠ [] := hload i0 (List.mem_cons_self _ _)
      simp only [allTagged, List.flatMap_cons]
      intro hc
      rw [List.isEmpty_iff, List.append_eq_nil] at hc
      exact h0 (List.map_eq_nil_iff.mp hc.1)
  simp only [select_questions_evenly]
  rw [if_neg hAllNe]
  rw [List.length_map, hshuffle]
  rw [selectLoop_length load sample hsample _ _ lecture_info (t % lecture_info.length)
    (fun info hmem => ⟨filter_allTagged load lecture_info hnodup info hmem, hload info hmem⟩)]
  simp only [clampedAllocs, List.length_map]

/-- Claim C1 (amended: the catalog's display names must be pairwise
distinct, because the selection groups the pooled questions by that name):
with `target_total = 40` the returned sequence's length is the sum of the
per-entry allocations — `base = 40 / n` plus one extra for the first
`40 % n` entries — each clamped to that entry's available question count;
in particular the spec's `[5, 3, 10]` scenario yields exactly 18
questions. -/
theorem C1_even_selection_length :
    (∀ (load : String → List Question) (sample : List TaggedQ → Nat → List TaggedQ)
      (shuffle : List TaggedQ → List TaggedQ) (lecture_info : List LectureEntry),
      (∀ (l : List TaggedQ) (n : Nat), n ≤ l.length → (sample l n).length = n) →
      (∀ l, (shuffle l).length = l.length) →
      lecture_info ≠ [] →
      (lecture_info.map LectureEntry.name).Nodup →
      (∀ info ∈ lecture_info, load info.filename ≠ []) →
      (select_questions_evenly load sample shuffle lecture_info 40).length =
        (clampedAllocs 40 (lecture_info.map (fun i => (load i.filename).length))).sum) ∧
    (select_questions_evenly demoLoad takeSample id demoCatalog 40).length = 18 := by
  constructor
  · intro load sample shuffle lecture_info hsample hshuffle hne hnodup hload
    exact select_questions_evenly_length load sample shuffle lecture_info 40
      hsample hshuffle hne hnodup hload
  · decide

/-- Witness for C1 at the spec's scenario catalog, with `take` as the
sampler and the identity as the final shuffle. -/
theorem C1_even_selection_length_witness :
    (select_questions_evenly demoLoad takeSample id demoCatalog 40).length =
      (clampedAllocs 40 (demoCatalog.map (fun i => (demoLoad i.filename).length))).sum :=
  C1_even_selection_length.1 demoLoad takeSample id demoCatalog
    (fun l n h => by simp [takeSample]; omega) (fun _ => rfl)
    (by decide) (by decide) (by decide)

/-- Counterexample to C1 as stated: a catalog of two entries sharing one
display name, each with one loadable question.  The name-based grouping
merges the two pools, every entry draws from the merged pool, and the run
returns 4 questions while the clamped allocations add up to 2. -/
theorem C1_counterexample_duplicate_names :
    (select_questions_evenly dupLoad takeSample id dupCatalog 40).length ≠
      (clampedAllocs 40 (dupCatalog.map (fun i => (dupLoad i.filename).length))).sum := by
  decide

/-- Claim C2 (amended): the returned sequence's length is the sum of the
clamped allocations, which is at most — but not always equal to —
`min(target_total, sum of all available questions)`; names must be pairwise
distinct as in C1. -/
theorem C2_even_selection_min :
    ∀ (load : String → List Question) (sample : List TaggedQ → Nat → List TaggedQ)
      (shuffle : List TaggedQ → List TaggedQ) (lecture_info : List LectureEntry)
      (t : Nat),
      (∀ (l : List TaggedQ) (n : Nat), n ≤ l.length → (sample l n).length = n) →
      (∀ l, (shuffle l).length = l.length) →
      lecture_info ≠ [] →
      (lecture_info.map LectureEntry.name).Nodup →
      (∀ info ∈ lecture_info, load info.filename ≠ []) →
      (select_questions_evenly load sample shuffle lecture_info t).length =
        (clampedAllocs t (lecture_info.map (fun i => (load i.filename).length))).sum ∧
      (select_questions_evenly load sample shuffle lecture_info t).length ≤
        min t (lecture_info.map (fun i => (load i.filename).length)).sum := by
  intro load sample shuffle lecture_info t hsample hshuffle hne hnodup hload
  have heq := select_questions_evenly_length load sample shuffle lecture_info t
    hsample hshuffle hne hnodup hload
  refine ⟨heq, ?_⟩
  rw [heq]
  have hn : 0 < lecture_info.length := List.length_pos.mpr hne
  have hr : t % lecture_info.length ≤ lecture_info.length :=
    Nat.le_of_lt (Nat.mod_lt t hn)
  apply le_min
  · calc (clampedAllocs t (lecture_info.map (fun i => (load i.filename).length))).sum
        ≤ (specAllocs (t / lecture_info.length) (t % lecture_info.length)
            lecture_info.length).sum := by
          simp only [clampedAllocs, List.length_map]
          exact sum_zipWith_min_le_left _ _
      _ = lecture_info.length * (t / lecture_info.length) + t % lecture_info.length :=
          specAllocs_sum _ _ _ hr
      _ = t := Nat.div_add_mod t lecture_info.length
  · simp only [clampedAllocs, List.length_map]
    exact sum_zipWith_min_le_right _ _

/-- Witness for C2 at the spec's scenario catalog. -/
theorem C2_even_selection_min_witness :
    (select_questions_evenly demoLoad takeSample id demoCatalog 40).length =
      (clampedAllocs 40 (demoCatalog.map (fun i => (demoLoad i.filename).length))).sum ∧
    (select_questions_evenly demoLoad takeSample id demoCatalog 40).length ≤
      min 40 (demoCatalog.map (fun i => (demoLoad i.filename).length)).sum :=
  C2_even_selection_min demoLoad takeSample id demoCatalog 40
    (fun l n h => by simp [takeSample]; omega) (fun _ => rfl)
    (by decide) (by decide) (by decide)

/-- Counterexample to C2 as stated: a two-entry catalog with 1 and 4
questions and `target_total = 4` realises 3 questions (allocations `[2,2]`
clamped to `[1,4]` give `1+2`), not `min(4, 5) = 4` — the shortfall of the
small entry is not redistributed. -/
theorem C2_counterexample_short_entry :
    (select_questions_evenly c2Load takeSample id c2Catalog 4).length ≠
      min 4 ((c2Catalog.map (fun i => (c2Load i.filename).length)).sum) := by
  decide

/-- The catalog loop: an entry appears exactly for the files whose load is
non-empty, carrying that load's length as its count. -/
theorem build_lecture_info_mem (load : String → List Question) :
    ∀ (files : List String),
      (∀ e ∈ build_lecture_info load files,
        e.filename ∈ files ∧ e.count = (load e.filename).length ∧ 1 ≤ e.count) ∧
      (∀ f ∈ files, load f ≠ [] →
        ∃ e ∈ build_lecture_info load files,
          e.filename = f ∧ e.count = (load f).length) := by
  intro files
  induction files with
  | nil =>
    constructor
    · intro e he
      simp [build_lecture_info] at he
    · intro f hf
      simp at hf
  | cons f rest ih =>
    constructor
    · intro e he
      simp only [build_lecture_info] at he
      by_cases hemp : (load f).isEmpty
      · rw [if_pos hemp] at he
        obtain ⟨h1, h2, h3⟩ := ih.1 e he
        exact ⟨List.mem_cons_of_mem _ h1, h2, h3⟩
      · rw [if_neg hemp] at he
        rcases List.mem_cons.mp he with rfl | he'
        · refine ⟨List.mem_cons_self _ _, rfl, ?_⟩
          have hne2 : load f ≠ [] := by simpa [List.isEmpty_iff] using hemp
          have hlen := List.length_pos.mpr hne2
          dsimp only
          omega
        · obtain ⟨h1, h2, h3⟩ := ih.1 e he'
          exact ⟨List.mem_cons_of_mem _ h1, h2, h3⟩
    · intro f' hf' hne
      rcases List.mem_cons.mp hf' with rfl | hf''
      · have hemp : (load f').isEmpty = false := by
          simp [List.isEmpty_iff]
          exact hne
        simp only [build_lecture_info, hemp, Bool.false_eq_true, if_false]
        exact ⟨⟨f', displayName f', (load f').length⟩, List.mem_cons_self _ _, rfl, rfl⟩
      · obtain ⟨e, he, h1, h2⟩ := ih.2 f' hf'' hne
        refine ⟨e, ?_, h1, h2⟩
        simp only [build_lecture_info]
        by_cases hemp : (load f).isEmpty
        · rwa [if_pos hemp]
        · rw [if_neg hemp]
          exact List.mem_cons_of_mem _ he

/-- Claim C6: `get_lecture_info` puts a file in the catalog exactly when its
load yields at least one question; the entry's count is the loaded length,
so every catalog entry has a count of at least 1. -/
theorem C6_catalog_entries (fileExists : String → Bool)
    (load : String → List Question) (directory : String)
    (listing : List String) (extra_files : List String) :
    (∀ e ∈ get_lecture_info fileExists load directory listing extra_files,
      e.filename ∈ discovered_files fileExists directory listing extra_files ∧
      e.count = (load e.filename).length ∧ 1 ≤ e.count) ∧
    (∀ f ∈ discovered_files fileExists directory listing extra_files,
      load f ≠ [] →
      ∃ e ∈ get_lecture_info fileExists load directory listing extra_files,
        e.filename = f ∧ e.count = (load f).length) :=
  build_lecture_info_mem load (discovered_files fileExists directory listing extra_files)

/-- Witness for C6 at a one-file directory whose file loads one question. -/
theorem C6_catalog_entries_witness :
    ((LectureEntry.mk "d/lecture1.json" "Lecture1" 1).filename ∈
        discovered_files allExist "d" ["lecture1.json"] [] ∧
      (LectureEntry.mk "d/lecture1.json" "Lecture1" 1).count =
        (oneQLoad "d/lecture1.json").length ∧
      1 ≤ (LectureEntry.mk "d/lecture1.json" "Lecture1" 1).count) ∧
    (∃ e ∈ get_lecture_info allExist oneQLoad "d" ["lecture1.json"] [],
      e.filename = "d/lecture1.json" ∧ e.count = (oneQLoad "d/lecture1.json").length) :=
  ⟨(C6_catalog_entries allExist oneQLoad "d" ["lecture1.json"] []).1
      ⟨"d/lecture1.json", "Lecture1", 1⟩ (by decide),
    (C6_catalog_entries allExist oneQLoad "d" ["lecture1.json"] []).2
      "d/lecture1.json" (by decide) (by decide)⟩

/-- Extras are only ever appended behind the running file list. -/
theorem addExtras_eq_append (fileExists : String → Bool) (directory : String) :
    ∀ (extras acc : List String),
      ∃ l, addExtras fileExists directory acc extras = acc ++ l := by
  intro extras
  induction extras with
  | nil =>
    intro acc
    exact ⟨[], by simp [addExtras]⟩
  | cons e rest ih =>
    intro acc
    simp only [addExtras]
    by_cases hc : (fileExists (if isAbs e then e else pjoin directory e) &&
        !(acc.contains (if isAbs e then e else pjoin directory e))) = true
    · rw [if_pos hc]
      obtain ⟨l, hl⟩ := ih (acc ++ [if isAbs e then e else pjoin directory e])
      refine ⟨[if isAbs e then e else pjoin directory e] ++ l, ?_⟩
      rw [hl, List.append_assoc]
    · rw [if_neg hc]
      exact ih acc

/-- Claim C5 (amended): the glob-discovered part of the catalog is totally
ordered by `lecture_sort_key` — numeric lecture number, then sub-number,
then lowercase name, with non-conforming names after all conforming ones —
and the spec's example list sorts as stated; configured extra sources,
however, are appended after the sorted discovered files in configuration
order, so the full catalog need not be ordered by the key. -/
theorem C5_lecture_order :
    (∀ (directory : String) (listing : List String),
      List.Sorted keyRel (find_lecture_files directory listing)) ∧
    (∀ (fileExists : String → Bool) (directory : String) (listing extras : List String),
      ∃ l, discovered_files fileExists directory listing extras =
        find_lecture_files directory listing ++ l) ∧
    List.insertionSort keyRel
        ["lecture2.json", "lecture1.json", "lecture1_2.json", "lecture10.json",
          "notes.json"] =
      ["lecture1.json", "lecture1_2.json", "lecture2.json", "lecture10.json",
        "notes.json"] :=
  ⟨fun directory listing => List.sorted_insertionSort keyRel _,
    fun fileExists directory listing extras =>
      addExtras_eq_append fileExists directory extras _,
    by decide⟩

/-- Counterexample to C5 as stated: with one discovered file
`d/lecture1.json` and the extra source `/x/lecture0.json`, the merged
catalog lists `lecture1` before `lecture0`, so it is not ordered by the
lecture sort key. -/
theorem C5_counterexample_extra_after :
    ¬ List.Sorted keyRel
      ((get_lecture_info allExist oneQLoad "d" ["lecture1.json"]
        ["/x/lecture0.json"]).map LectureEntry.filename) := by
  intro h
  rw [(by decide :
    (get_lecture_info allExist oneQLoad "d" ["lecture1.json"]
        ["/x/lecture0.json"]).map LectureEntry.filename =
      ["d/lecture1.json", "/x/lecture0.json"])] at h
  have h1 := (List.sorted_cons.mp h).1 "/x/lecture0.json" (by simp)
  exact absurd h1 (by decide)
